import Mathlib

/-!
Shallow embedding of the spin endpoint of zora-roulette-web
(`src/app/api/spin/route.ts`).  JavaScript numbers are modelled as exact
rationals (`ℚ`, finite values only: `NaN` and `Infinity` do not occur in the
model), strings as Lean `String`, nullish values as `Option`, and the
external `Date` string parser as an explicit function parameter.
-/

namespace ZoraRoulette

/-- A JavaScript value as it can reach the parsing utilities:
`null`, `undefined`, a finite number, a string, or a boolean. -/
inductive JSVal where
  | vnull
  | vundef
  | vnum (x : ℚ)
  | vstr (s : String)
  | vbool (b : Bool)
deriving DecidableEq

/-- A raw balance/amount of TypeScript type `string | number | bigint`. -/
inductive RawVal where
  | rstr (s : String)
  | rnum (x : ℚ)
  | rbig (n : ℤ)
deriving DecidableEq

/-- A raw timestamp of TypeScript type `string | number`. -/
inductive TsRaw where
  | ts (s : String)
  | tn (x : ℚ)
deriving DecidableEq

/-- The JavaScript whitespace class used by `\s`, `String.prototype.trim`
and the numeric-string grammars (ASCII whitespace plus NBSP and BOM). -/
def isJsWs (c : Char) : Bool :=
  c = ' ' || c = '\t' || c = '\n' || c = '\r' || c = '\x0b' ||
  c = '\x0c' || c = ' ' || c = '﻿'

/-- Trim JS whitespace from both ends of a character list. -/
def trimChars (l : List Char) : List Char :=
  ((l.dropWhile isJsWs).reverse.dropWhile isJsWs).reverse

/-- Value of a list of decimal digit characters. -/
def digitsVal (l : List Char) : ℕ :=
  l.foldl (fun a c => 10 * a + (c.toNat - 48)) 0

def hexDigit (c : Char) : Bool :=
  c.isDigit || ('a' ≤ c && c ≤ 'f') || ('A' ≤ c && c ≤ 'F')

def hexVal1 (c : Char) : ℕ :=
  if c.isDigit then c.toNat - 48
  else if 'a' ≤ c && c ≤ 'f' then c.toNat - 87
  else c.toNat - 55

def hexVal (l : List Char) : ℕ :=
  l.foldl (fun a c => 16 * a + hexVal1 c) 0

def octDigit (c : Char) : Bool := '0' ≤ c && c ≤ '7'

def octVal (l : List Char) : ℕ :=
  l.foldl (fun a c => 8 * a + (c.toNat - 48)) 0

def binDigit (c : Char) : Bool := c = '0' || c = '1'

def binVal (l : List Char) : ℕ :=
  l.foldl (fun a c => 2 * a + (c.toNat - 48)) 0

/-- A non-empty all-digit tail, or `none`. -/
def parseDigitsTail (r : List Char) : Option ℕ :=
  if r ≠ [] ∧ r.all Char.isDigit then some (digitsVal r) else none

/-- An optionally signed non-empty digit string, or `none`. -/
def parseSignedDigits : List Char → Option ℤ
  | '+' :: r => (parseDigitsTail r).map Int.ofNat
  | '-' :: r => (parseDigitsTail r).map fun n => -(n : ℤ)
  | r => (parseDigitsTail r).map Int.ofNat

/-- The exponent part of a JS decimal literal: empty, or `e`/`E` followed by
an optionally signed digit string that consumes the rest of the input. -/
def parseExpPart : List Char → Option ℤ
  | [] => some 0
  | 'e' :: r => parseSignedDigits r
  | 'E' :: r => parseSignedDigits r
  | _ => none

/-- `10 ^ e` over `ℚ` for an integer exponent. -/
def qpow10 (e : ℤ) : ℚ :=
  if 0 ≤ e then (10 : ℚ) ^ e.toNat else 1 / (10 : ℚ) ^ (-e).toNat

/-- An unsigned JS decimal literal (`digits`, `digits.digits`, `.digits`,
with optional exponent), consuming the whole input. -/
def parseUnsignedDec (l : List Char) : Option ℚ :=
  let ip := l.takeWhile Char.isDigit
  let r1 := l.dropWhile Char.isDigit
  match r1 with
  | '.' :: r2 =>
    let fp := r2.takeWhile Char.isDigit
    let r3 := r2.dropWhile Char.isDigit
    if ip.isEmpty && fp.isEmpty then none
    else (parseExpPart r3).map fun e =>
      ((digitsVal ip : ℚ) + (digitsVal fp : ℚ) / (10 : ℚ) ^ fp.length) * qpow10 e
  | _ =>
    if ip.isEmpty then none
    else (parseExpPart r1).map fun e => (digitsVal ip : ℚ) * qpow10 e

/-- A signed decimal literal or `Infinity` (which is non-finite, hence `none`). -/
def parseDecOrInf (r : List Char) (sgn : ℚ) : Option ℚ :=
  if r = ['I', 'n', 'f', 'i', 'n', 'i', 't', 'y'] then none
  else (parseUnsignedDec r).map fun q => sgn * q

def parseSignedDec : List Char → Option ℚ
  | '+' :: r => parseDecOrInf r 1
  | '-' :: r => parseDecOrInf r (-1)
  | r => parseDecOrInf r 1

/-- JavaScript `Number(s)` on a string, restricted to finite results:
`none` when the JS result would be `NaN` or `±Infinity`.  Mirrors the
`StringNumericLiteral` grammar: trimmed whitespace, empty string is `0`,
hex/octal/binary prefixes without sign, otherwise an optionally signed
decimal literal or `Infinity`. -/
def jsStrToNum (s : String) : Option ℚ :=
  match trimChars s.data with
  | [] => some 0
  | '0' :: 'x' :: r => if r ≠ [] ∧ r.all hexDigit then some (hexVal r : ℚ) else none
  | '0' :: 'X' :: r => if r ≠ [] ∧ r.all hexDigit then some (hexVal r : ℚ) else none
  | '0' :: 'o' :: r => if r ≠ [] ∧ r.all octDigit then some (octVal r : ℚ) else none
  | '0' :: 'O' :: r => if r ≠ [] ∧ r.all octDigit then some (octVal r : ℚ) else none
  | '0' :: 'b' :: r => if r ≠ [] ∧ r.all binDigit then some (binVal r : ℚ) else none
  | '0' :: 'B' :: r => if r ≠ [] ∧ r.all binDigit then some (binVal r : ℚ) else none
  | l => parseSignedDec l

/-- `v.replace(/_/g, "")`. -/
def stripUnderscores (s : String) : String :=
  ⟨s.data.filter fun c => c ≠ '_'⟩

/-- `toNum` (route.ts lines 119–127): nullish gives `undefined`; a number is
returned as-is; a string is parsed by `Number` after removing underscores,
kept only when finite; anything else gives `undefined`. -/
def toNum : JSVal → Option ℚ
  | .vnull => none
  | .vundef => none
  | .vnum x => some x
  | .vstr s => jsStrToNum (stripUnderscores s)
  | .vbool _ => none

/-- JavaScript `BigInt(s)` on a string (`StringIntegerLiteral` grammar):
trimmed whitespace, empty string is `0`, hex/octal/binary prefixes without
sign, otherwise an optionally signed digit string; `none` when it throws. -/
def parseBigIntStr (s : String) : Option ℤ :=
  match trimChars s.data with
  | [] => some 0
  | '0' :: 'x' :: r => if r ≠ [] ∧ r.all hexDigit then some (hexVal r : ℤ) else none
  | '0' :: 'X' :: r => if r ≠ [] ∧ r.all hexDigit then some (hexVal r : ℤ) else none
  | '0' :: 'o' :: r => if r ≠ [] ∧ r.all octDigit then some (octVal r : ℤ) else none
  | '0' :: 'O' :: r => if r ≠ [] ∧ r.all octDigit then some (octVal r : ℤ) else none
  | '0' :: 'b' :: r => if r ≠ [] ∧ r.all binDigit then some (binVal r : ℤ) else none
  | '0' :: 'B' :: r => if r ≠ [] ∧ r.all binDigit then some (binVal r : ℤ) else none
  | '+' :: r => (parseDigitsTail r).map Int.ofNat
  | '-' :: r => (parseDigitsTail r).map fun n => -(n : ℤ)
  | r => (parseDigitsTail r).map Int.ofNat

/-- The argument conversion inside `formatBalanceRaw`:
`typeof raw === 'bigint' ? raw.toString() : String(raw)` followed by
`BigInt(rawStr)`; `none` when `BigInt` throws.  A finite number stringifies
to a plain integer literal exactly when it is integral with magnitude below
`1e21` (above that JS renders exponent notation, which `BigInt` rejects). -/
def rawToBigInt : RawVal → Option ℤ
  | .rbig n => some n
  | .rstr s => parseBigIntStr s
  | .rnum x => if x.den = 1 ∧ |x.num| < 10 ^ 21 then some x.num else none

/-- `formatBalanceRaw` (lines 144–151):
`Number(formatUnits(BigInt(rawStr), decimals))`, with `0` on any throw;
exact rational model of the base-unit scaling. -/
def formatBalanceRaw (raw : RawVal) (decimals : ℕ) : ℚ :=
  match rawToBigInt raw with
  | some n => (n : ℚ) / (10 : ℚ) ^ decimals
  | none => 0

/-- Proleptic Gregorian civil date `(year, month, day)` from days since the
Unix epoch, as computed by JavaScript `Date` (UTC). -/
def civilFromDays (z0 : ℤ) : ℤ × ℤ × ℤ :=
  let z := z0 + 719468
  let era := Int.fdiv z 146097
  let doe := z - era * 146097
  let yoe := Int.fdiv (doe - Int.fdiv doe 1460 + Int.fdiv doe 36524 - Int.fdiv doe 146096) 365
  let y := yoe + era * 400
  let doy := doe - (365 * yoe + Int.fdiv yoe 4 - Int.fdiv yoe 100)
  let mp := Int.fdiv (5 * doy + 2) 153
  let d := doy - Int.fdiv (153 * mp + 2) 5 + 1
  let m := if mp < 10 then mp + 3 else mp - 9
  (if m ≤ 2 then y + 1 else y, m, d)

/-- The calendar year (UTC) of a Unix-milliseconds time value. -/
def yearOfMs (ms : ℤ) : ℤ :=
  (civilFromDays (Int.fdiv ms 86400000)).1

/-- Truncation toward zero (JavaScript `ToIntegerOrInfinity` on a finite
number, as applied by the `Date` constructor). -/
def jsTrunc (q : ℚ) : ℤ :=
  if 0 ≤ q then ⌊q⌋ else -⌊-q⌋

/-- `parseTimestamp` (lines 154–184).  `dateParse` models `new Date(string)`
on the host: `some ms` when the string parses to time value `ms`, `none` for
an invalid date.  The `date.getFullYear()` window check is modelled in UTC
via `yearOfMs`.  Falsy inputs (`null`, `undefined`, `false`, `0`, `""`)
return `null`; `true` reaches the final `return null`. -/
def parseTimestamp (dateParse : String → Option ℤ) : JSVal → Option ℚ
  | .vnull => none
  | .vundef => none
  | .vbool _ => none
  | .vnum x =>
    if x = 0 then none
    else if x < 4102444800 then some (x * 1000)
    else some x
  | .vstr s =>
    if s = "" then none
    else
      match dateParse s with
      | some ms =>
        if 2020 ≤ yearOfMs ms ∧ yearOfMs ms ≤ 2030 then some (ms : ℚ) else none
      | none => none

def monthNames : List String :=
  ["Jan", "Feb", "Mar", "Apr", "May", "Jun",
   "Jul", "Aug", "Sep", "Oct", "Nov", "Dec"]

/-- `padStart(2, '0')` on a (nonnegative, at most two-digit) number. -/
def padTwo (n : ℤ) : String :=
  if n < 10 then "0" ++ toString n else toString n

/-- `formatTimestamp` (lines 187–220): `—` dashes for falsy or
out-of-window times, otherwise a manual English date string and a 12-hour
clock time string, both in UTC. -/
def formatTimestamp (tsO : Option ℚ) : String × String :=
  match tsO with
  | none => ("—", "—")
  | some ts =>
    if ts = 0 then ("—", "—")
    else
      let ms := jsTrunc ts
      let c := civilFromDays (Int.fdiv ms 86400000)
      let year := c.1
      if year < 2020 ∨ 2030 < year then ("—", "—")
      else
        let dateStr := padTwo c.2.2 ++ " " ++ (monthNames.getD (c.2.1 - 1).toNat "") ++
          ", " ++ toString year
        let hours := Int.emod (Int.fdiv ms 3600000) 24
        let minutes := Int.emod (Int.fdiv ms 60000) 60
        let ampm := if 12 ≤ hours then "PM" else "AM"
        let h12a := Int.emod hours 12
        let h12 := if h12a = 0 then 12 else h12a
        (dateStr, toString h12 ++ ":" ++ padTwo minutes ++ " " ++ ampm)

/-- `shortAddress` (lines 244–248). -/
def shortAddress (addr : Option String) : String :=
  match addr with
  | none => "—"
  | some a =>
    if a = "" then "—"
    else if a.length ≤ 10 then a
    else String.mk (a.data.take 6) ++ "..." ++ String.mk (a.data.drop (a.data.length - 4))

/-- A nested profile object carrying an optional handle
(`ownerProfile`, `owner`, `userProfile`, `user`). -/
structure Profile where
  handle : Option String
deriving DecidableEq

/-- `SwapNode` (route.ts lines 27–41). -/
structure SwapNode where
  activityType : Option String
  coinAmount : Option RawVal
  amount : Option RawVal
  blockTimestamp : Option TsRaw
  timestamp : Option TsRaw
  createdAt : Option TsRaw
  time : Option TsRaw
  senderAddress : Option String
  fromAddress : Option String
  toAddress : Option String
  userAddress : Option String
  trader : Option String
  account : Option String
deriving DecidableEq

/-- `HolderNode` (lines 43–50). -/
structure HolderNode where
  ownerProfile : Option Profile
  owner : Option Profile
  ownerAddress : Option String
  address : Option String
  balance : Option RawVal
  formattedBalance : Option RawVal
deriving DecidableEq

/-- `CommentNode` (lines 52–61). -/
structure CommentNode where
  userProfile : Option Profile
  user : Option Profile
  userAddress : Option String
  comment : Option String
  text : Option String
  timestamp : Option TsRaw
  createdAt : Option TsRaw
  time : Option TsRaw
deriving DecidableEq

/-- The `data?.zora20Token` contents (lines 67–78).  The optional
`swapActivities?`/`zoraComments?`/`tokenBalances?` wrappers and their
optional `edges?` are collapsed into one `Option`; a list element models
`edge?.node` (a nodeless edge is `none`).  `decimals` is kept as a natural
number, the shape the API delivers. -/
structure ZoraToken where
  decimals : Option ℕ
  swapEdges : Option (List (Option SwapNode))
  commentEdges : Option (List (Option CommentNode))
  holderEdges : Option (List (Option HolderNode))
deriving DecidableEq

/-- A GraphQL response; the `data?` / `zora20Token?` optional chain is
collapsed into a single `Option`. -/
structure ApiResponse where
  zora20Token : Option ZoraToken
deriving DecidableEq

/-- `resp?.data?.zora20Token?.swapActivities?.edges || []`. -/
def swapEdgesOf (resp : Option ApiResponse) : List (Option SwapNode) :=
  (((resp.bind fun r => r.zora20Token).bind fun t => t.swapEdges)).getD []

/-- `resp?.data?.zora20Token?.zoraComments?.edges || []`. -/
def commentEdgesOf (resp : Option ApiResponse) : List (Option CommentNode) :=
  (((resp.bind fun r => r.zora20Token).bind fun t => t.commentEdges)).getD []

/-- `resp?.data?.zora20Token?.tokenBalances?.edges || []`. -/
def holderEdgesOf (resp : Option ApiResponse) : List (Option HolderNode) :=
  (((resp.bind fun r => r.zora20Token).bind fun t => t.holderEdges)).getD []

/-- JavaScript `a ?? b` (nullish coalescing) on optional values. -/
def orNullish (a b : Option α) : Option α :=
  match a with
  | some v => some v
  | none => b

/-- JavaScript `a || b` where `a : string | undefined` and `b : string`:
falls through on `undefined` and on the empty string, the only falsy
string. -/
def jsOrStr (a : Option String) (b : String) : String :=
  match a with
  | some s => if s = "" then b else s
  | none => b

/-- Line 266: `node.coinAmount ?? node.amount ?? '0'`. -/
def swapAmountRaw (n : SwapNode) : RawVal :=
  (orNullish n.coinAmount n.amount).getD (RawVal.rstr "0")

/-- Line 270: `node.senderAddress ?? node.fromAddress ?? node.toAddress ??
node.userAddress ?? node.trader ?? node.account`. -/
def swapTrader (n : SwapNode) : Option String :=
  orNullish n.senderAddress (orNullish n.fromAddress (orNullish n.toAddress
    (orNullish n.userAddress (orNullish n.trader n.account))))

/-- Line 287: `node.blockTimestamp ?? node.timestamp ?? node.createdAt ??
node.time`. -/
def swapTs (n : SwapNode) : Option TsRaw :=
  orNullish n.blockTimestamp (orNullish n.timestamp (orNullish n.createdAt n.time))

/-- Lines 316–320: `node.ownerProfile?.handle || node.owner?.handle ||
node.ownerAddress || node.address || 'unknown'`. -/
def holderLabel (n : HolderNode) : String :=
  jsOrStr (n.ownerProfile.bind fun p => p.handle)
    (jsOrStr (n.owner.bind fun p => p.handle)
      (jsOrStr n.ownerAddress (jsOrStr n.address "unknown")))

/-- Line 322: `node.balance ?? node.formattedBalance ?? '0'`. -/
def holderBalanceRaw (n : HolderNode) : RawVal :=
  (orNullish n.balance n.formattedBalance).getD (RawVal.rstr "0")

/-- Lines 362–365: `node.userProfile?.handle || node.user?.handle ||
node.userAddress || 'anon'`. -/
def commentAuthor (n : CommentNode) : String :=
  jsOrStr (n.userProfile.bind fun p => p.handle)
    (jsOrStr (n.user.bind fun p => p.handle) (jsOrStr n.userAddress "anon"))

/-- Line 367: `node.comment || node.text || ''`. -/
def commentRawText (n : CommentNode) : String :=
  jsOrStr n.comment (jsOrStr n.text "")

/-- Line 374: `node.timestamp ?? node.createdAt ?? node.time`. -/
def commentTs (n : CommentNode) : Option TsRaw :=
  orNullish n.timestamp (orNullish n.createdAt n.time)

/-- View an optional raw timestamp as the JS value handed to
`parseTimestamp` (an absent field is `undefined`). -/
def tsToVal : Option TsRaw → JSVal
  | none => .vundef
  | some (.ts s) => .vstr s
  | some (.tn x) => .vnum x

/-- `.replace(/\s+/g, ' ')`: each maximal whitespace run becomes a single
space.  `prevWs` records whether the previous character was whitespace
(i.e. whether a run is already open). -/
def collapseGo (prevWs : Bool) : List Char → List Char
  | [] => []
  | c :: rest =>
    if isJsWs c then
      if prevWs then collapseGo true rest else ' ' :: collapseGo true rest
    else c :: collapseGo false rest

/-- Lines 367–370: `(node.comment || node.text || '').toString()
.replace(/\s+/g, ' ').trim()`. -/
def normalizeText (s : String) : String :=
  String.mk (trimChars (collapseGo false s.data))

/-- Does the character list start with the letters `BUY`? -/
def buyHere : List Char → Bool
  | 'B' :: 'U' :: 'Y' :: _ => true
  | _ => false

/-- `sideRaw.includes('BUY')` on an upper-cased character list. -/
def hasBuy : List Char → Bool
  | [] => false
  | c :: r => buyHere (c :: r) || hasBuy r

/-- `ProcessedSwap` (lines 80–88); the `'BUY' | 'SELL'` union is a string. -/
structure ProcessedSwap where
  index : ℕ
  side : String
  amount : ℚ
  address : String
  date : String
  time : String
  timestamp : Option ℚ
deriving DecidableEq

/-- `ProcessedHolder` (lines 90–96); `isTopHolder` is always set here. -/
structure ProcessedHolder where
  rank : ℕ
  holder : String
  balance : ℚ
  percentage : ℚ
  isTopHolder : Bool
deriving DecidableEq

/-- `ProcessedComment` (lines 98–103). -/
structure ProcessedComment where
  author : String
  text : String
  date : String
  timestamp : Option ℚ
deriving DecidableEq

/-- One swap row: the body of the `map` at lines 259–299. -/
def mkSwap (dateParse : String → Option ℤ) (dec : ℕ) (idx : ℕ) (node : SwapNode) :
    ProcessedSwap :=
  let sideRaw := (node.activityType.getD "").data.map Char.toUpper
  let isBuy := hasBuy sideRaw
  let parsedTs := parseTimestamp dateParse (tsToVal (swapTs node))
  let ft := formatTimestamp parsedTs
  { index := idx + 1
    side := if isBuy then "BUY" else "SELL"
    amount := formatBalanceRaw (swapAmountRaw node) dec
    address := shortAddress (swapTrader node)
    date := ft.1
    time := ft.2
    timestamp := parsedTs }

/-- The indexed `map` followed by the non-null `filter` (lines 259–300):
an edge without a node produces `null` and is dropped, but still advances
the index. -/
def swapRows (dateParse : String → Option ℤ) (dec : ℕ) :
    ℕ → List (Option SwapNode) → List ProcessedSwap
  | _, [] => []
  | i, none :: rest => swapRows dateParse dec (i + 1) rest
  | i, some node :: rest => mkSwap dateParse dec i node :: swapRows dateParse dec (i + 1) rest

/-- `processSwaps` (lines 251–301). -/
def processSwaps (dateParse : String → Option ℤ) (resp : Option ApiResponse)
    (decimalsGuess : ℕ) : List ProcessedSwap :=
  let edges := swapEdgesOf resp
  if edges.isEmpty then []
  else
    let tokenDecimals := ((resp.bind fun r => r.zora20Token).bind fun t => t.decimals).getD
      decimalsGuess
    swapRows dateParse tokenDecimals 0 (edges.take 10)

/-- `Number(x.toFixed(1))`: round to one decimal place; on a tie the larger
value is chosen, matching Mathlib's `round`. -/
def round1 (q : ℚ) : ℚ := (round (10 * q) : ℤ) / 10

/-- The body of the `map` at lines 312–325: `edge?.node`, holder label and
scaled balance (Zora tokens are fixed at 18 decimals). -/
def holderEntry (e : Option HolderNode) : Option (String × ℚ) :=
  e.map fun node => (holderLabel node, formatBalanceRaw (holderBalanceRaw node) 18)

/-- The indexed ranking `map` at lines 335–348. -/
def rankHolders (total : ℚ) : ℕ → List (String × ℚ) → List ProcessedHolder
  | _, [] => []
  | i, p :: rest =>
    let percentage := if 0 < total then p.2 / total * 100 else 0
    let safePercentage := min 100 (max 0 percentage)
    { rank := i + 1
      holder := p.1
      balance := p.2
      percentage := round1 safePercentage
      isTopHolder := decide (i = 0) } :: rankHolders total (i + 1) rest

/-- `allHolders` (lines 312–326): the positive-balance holders among the
first 11 edges, in edge order. -/
def posHolders (resp : Option ApiResponse) : List (String × ℚ) :=
  (((holderEdgesOf resp).take 11).filterMap holderEntry).filter fun p => 0 < p.2

/-- `processHolders` (lines 304–349): skip the first positive-balance
holder (the presumed market maker), keep the next ten, and rank them with
percentages of their own total. -/
def processHolders (resp : Option ApiResponse) : List ProcessedHolder :=
  let edges := holderEdgesOf resp
  if edges.isEmpty then []
  else
    let holders := ((posHolders resp).drop 1).take 10
    let top10Total := (holders.map fun p => p.2).sum
    rankHolders top10Total 0 holders

/-- `processComments` (lines 352–386). -/
def processComments (dateParse : String → Option ℤ) (resp : Option ApiResponse) :
    List ProcessedComment :=
  let edges := commentEdgesOf resp
  if edges.isEmpty then []
  else
    (edges.take 10).filterMap fun e =>
      e.bind fun node =>
        let text := normalizeText (commentRawText node)
        if text = "" then none
        else
          let parsedTs := parseTimestamp dateParse (tsToVal (commentTs node))
          some { author := commentAuthor node
                 text := text
                 date := (formatTimestamp parsedTs).1
                 timestamp := parsedTs }

/-- `MAX_RECENT_CACHE` (line 24). -/
def MAX_RECENT_CACHE : ℕ := 50

/-- Lines 491–495: `recentlyShownCoins.push(chosen.address)` followed by a
`shift()` of the oldest entry when the length exceeds the cap. -/
def pushRecent (cache : List String) (addr : String) : List String :=
  let c := cache ++ [addr]
  if MAX_RECENT_CACHE < c.length then c.drop 1 else c

/-- The candidate coin shape (`lib/types.ts`); the selection loop inspects
only `address`. -/
structure Coin where
  address : String
  name : Option String
  symbol : Option String
  marketCap : Option ℚ
  volume24h : Option ℚ
  uniqueHolders : Option ℚ
  marketCapDelta24h : Option ℚ
  change24h : Option ℚ
  createdAt : Option String
deriving DecidableEq

/-- The three settled edge lists fetched for one candidate (lines 425–441);
a rejected promise or missing payload contributes `[]`. -/
structure ProbeResult where
  swaps : List (Option SwapNode)
  comments : List (Option CommentNode)
  holders : List (Option HolderNode)
deriving DecidableEq

/-- Line 444: `comments.length > 0 || swaps.length > 0 || holders.length > 0`. -/
def hasActivity (p : ProbeResult) : Bool :=
  !p.comments.isEmpty || !p.swaps.isEmpty || !p.holders.isEmpty

/-- The candidate-selection logic of `GET` (lines 420–489), abstracted over
the probe results and the random draw of the second fallback: scan the
first `min 20 n` candidates in order and choose the first with any
activity; otherwise, when more candidates remain, pick one of the remaining
candidates at random (`rand` draws the offset); otherwise fall back to the
first candidate. -/
def selectCoin (cands : List Coin) (probe : Coin → ProbeResult) (rand : ℕ) : Option Coin :=
  let maxAttempts := min 20 cands.length
  match (cands.take maxAttempts).find? fun c => hasActivity (probe c) with
  | some c => some c
  | none =>
    if maxAttempts < cands.length then
      cands.get? (maxAttempts + rand % (cands.length - maxAttempts))
    else cands.head?

/-- Specification-side coalescer, following the spec's words
("Coalesce-first-present: given an ordered list of candidate field
names/aliases, return the first defined, non-null value"), to be compared
with the source's `??` chains. -/
def firstNonNullish : List (Option α) → Option α
  | [] => none
  | some a :: _ => some a
  | none :: r => firstNonNullish r

/-- Specification-side coalescer for string fields selected with `||` in
the source: the first candidate that is defined and non-empty (truthy). -/
def firstTruthy : List (Option String) → Option String
  | [] => none
  | some s :: r => if s = "" then firstTruthy r else some s
  | none :: r => firstTruthy r

/-!  Theorems.  The rational arithmetic of the embedding must evaluate on
concrete inputs, so the protective irreducibility of the `Rat` operations
is locally reset to the default reducibility. -/

attribute [local semireducible] Rat.mul Rat.add Rat.sub Rat.inv Rat.ofScientific

/-- Claim C1 (amended): `parseTimestamp` returns the unknown sentinel
`null` on falsy inputs (`null`, `undefined`, numeric `0`, the empty string;
booleans also end at `null`); a nonzero numeric input strictly below the
year-2100-in-seconds threshold 4102444800 is treated as unix seconds and
multiplied by 1000, and a numeric input at or above the threshold is
returned unchanged — in both cases with no year validation; a string input
is parsed as an ISO-8601 date, and a non-null result of the string branch
always corresponds to a calendar year within 2020–2030. -/
theorem parseTimestamp_normalizes (dateParse : String → Option ℤ) :
    parseTimestamp dateParse .vnull = none ∧
    parseTimestamp dateParse .vundef = none ∧
    (∀ b, parseTimestamp dateParse (.vbool b) = none) ∧
    parseTimestamp dateParse (.vnum 0) = none ∧
    parseTimestamp dateParse (.vstr "") = none ∧
    (∀ x : ℚ, x ≠ 0 → x < 4102444800 →
      parseTimestamp dateParse (.vnum x) = some (x * 1000)) ∧
    (∀ x : ℚ, (4102444800 : ℚ) ≤ x → parseTimestamp dateParse (.vnum x) = some x) ∧
    (∀ s r, parseTimestamp dateParse (.vstr s) = some r →
      ∃ ms, dateParse s = some ms ∧ r = (ms : ℚ) ∧
        2020 ≤ yearOfMs ms ∧ yearOfMs ms ≤ 2030) := by
  refine ⟨rfl, rfl, fun b => rfl, ?_, rfl, ?_, ?_, ?_⟩
  · simp [parseTimestamp]
  · intro x hx hlt
    simp only [parseTimestamp, if_neg hx, if_pos hlt]
  · intro x hge
    have h0 : (0 : ℚ) < x := lt_of_lt_of_le (by norm_num) hge
    have hlt : ¬x < 4102444800 := not_lt.mpr hge
    simp only [parseTimestamp, if_neg h0.ne', if_neg hlt]
  · intro s r h
    by_cases hs : s = ""
    · subst hs; simp [parseTimestamp] at h
    · simp only [parseTimestamp, if_neg hs] at h
      cases hdp : dateParse s with
      | none => rw [hdp] at h; cases h
      | some ms =>
        rw [hdp] at h
        dsimp only at h
        by_cases hy : 2020 ≤ yearOfMs ms ∧ yearOfMs ms ≤ 2030
        · rw [if_pos hy] at h
          exact ⟨ms, rfl, (Option.some_inj.mp h).symm, hy.1, hy.2⟩
        · rw [if_neg hy] at h; cases h

/-- Witness for C1: the numeric input 1600000000 (September 2020 in unix
seconds) is scaled to milliseconds. -/
theorem parseTimestamp_normalizes_witness :
    parseTimestamp (fun _ => none) (.vnum 1600000000) = some (1600000000 * 1000) :=
  (parseTimestamp_normalizes (fun _ => none)).2.2.2.2.2.1 1600000000
    (by norm_num) (by norm_num)

/-- Counterexample to C1 as stated: the numeric input 1000 yields the
non-null result 1000000 whose calendar year is 1970, outside 2020–2030 —
the year window is enforced only for string inputs. -/
theorem parseTimestamp_year_window_counterexample :
    parseTimestamp (fun _ => none) (.vnum 1000) = some 1000000 ∧
    ¬(2020 ≤ yearOfMs 1000000 ∧ yearOfMs 1000000 ≤ 2030) := by
  constructor
  · decide
  · decide

/-- Claim C2 (amended): `parseTimestamp` is idempotent on its own output
whenever that output is at or above the seconds/milliseconds threshold
4102444800 — which covers every output the year-window lets through the
string branch and every scaled output of a plausible unix-seconds input;
an output below the threshold (from a numeric input under 4102444.8) is
scaled a second time by a second application. -/
theorem parseTimestamp_idempotent_above_threshold
    (dateParse dateParse2 : String → Option ℤ) (v : JSVal) (r : ℚ)
    (h1 : parseTimestamp dateParse v = some r) (h2 : (4102444800 : ℚ) ≤ r) :
    parseTimestamp dateParse2 (.vnum r) = some r := by
  have h0 : (0 : ℚ) < r := lt_of_lt_of_le (by norm_num) h2
  simp only [parseTimestamp, if_neg h0.ne', if_neg (not_lt.mpr h2)]

/-- Witness for C2: a numeric value already in milliseconds is a fixed
point. -/
theorem parseTimestamp_idempotent_witness :
    parseTimestamp (fun _ => none) (.vnum 5000000000) = some 5000000000 :=
  parseTimestamp_idempotent_above_threshold (fun _ => none) (fun _ => none)
    (.vnum 5000000000) 5000000000 (by decide) (by norm_num)

/-- Counterexample to C2 as stated: `parseTimestamp 1000 = 1000000` is
non-null, yet applying `parseTimestamp` to 1000000 rescales it to
1000000000. -/
theorem parseTimestamp_idempotence_counterexample :
    parseTimestamp (fun _ => none) (.vnum 1000) = some 1000000 ∧
    parseTimestamp (fun _ => none) (.vnum 1000000) = some 1000000000 ∧
    (1000000000 : ℚ) ≠ 1000000 := by
  refine ⟨by decide, by decide, by norm_num⟩

/-- Claim C3 (amended): `toNum` never throws and coerces: a number input is
returned as-is; a string input is parsed after stripping underscores only —
thousands-separator commas are not stripped, so a string like "1_000"
yields 1000 while "1,000" yields the unknown sentinel; any string whose
stripped form is not a finite JS numeric literal, as well as null,
undefined and non-string non-number inputs, yields the unknown sentinel
`undefined`. -/
theorem toNum_coerces :
    toNum .vnull = none ∧
    toNum .vundef = none ∧
    (∀ x : ℚ, toNum (.vnum x) = some x) ∧
    (∀ b, toNum (.vbool b) = none) ∧
    (∀ s, jsStrToNum (stripUnderscores s) = none → toNum (.vstr s) = none) ∧
    toNum (.vstr "1_000") = some 1000 ∧
    toNum (.vstr "1,000") = none ∧
    toNum (.vstr "abc") = none := by
  refine ⟨rfl, rfl, fun x => rfl, fun b => rfl, fun s h => h, by decide, by decide, by decide⟩

/-- Witness for C3: an unparseable stripped string yields the sentinel. -/
theorem toNum_coerces_witness : toNum (.vstr "12px") = none :=
  toNum_coerces.2.2.2.2.1 "12px" (by decide)

/-- Counterexample to C3 as stated: the comma in "1,000" is not stripped,
so the parse fails and `toNum` returns the unknown sentinel instead of
1000. -/
theorem toNum_comma_counterexample :
    toNum (.vstr "1,000") = none ∧ toNum (.vstr "1,000") ≠ some 1000 := by
  refine ⟨by decide, by decide⟩

/-- One `pushRecent` step keeps the cache within the cap. -/
lemma pushRecent_length_le (cache : List String) (addr : String)
    (h : cache.length ≤ 50) : (pushRecent cache addr).length ≤ 50 := by
  simp only [pushRecent, MAX_RECENT_CACHE]
  split_ifs with hc
  · simp only [List.length_drop, List.length_append, List.length_cons, List.length_nil]
    omega
  · simp only [List.length_append, List.length_cons, List.length_nil] at hc ⊢
    omega

/-- Folding `pushRecent` from a within-cap cache stays within the cap. -/
lemma foldl_pushRecent_length (addrs : List String) :
    ∀ cache : List String, cache.length ≤ 50 →
      (List.foldl pushRecent cache addrs).length ≤ 50 := by
  induction addrs with
  | nil => intro cache h; exact h
  | cons a t ih =>
    intro cache h
    exact ih (pushRecent cache a) (pushRecent_length_le cache a h)

/-- Claim C7: the recently-shown cache is a bounded FIFO of at most 50
entries: each request appends exactly one address; below the cap the list
is extended, at the cap the oldest (front) entry is evicted, and starting
from the empty cache every reachable state has length at most 50. -/
theorem pushRecent_bounded_fifo :
    (∀ addrs : List String, (List.foldl pushRecent [] addrs).length ≤ 50) ∧
    (∀ cache addr, cache.length < 50 → pushRecent cache addr = cache ++ [addr]) ∧
    (∀ cache addr, cache.length = 50 →
      pushRecent cache addr = cache.drop 1 ++ [addr]) ∧
    (∀ cache addr, cache.length ≤ 50 → (pushRecent cache addr).length ≤ 50) := by
  refine ⟨fun addrs => foldl_pushRecent_length addrs [] (by simp), ?_, ?_,
    fun c a h => pushRecent_length_le c a h⟩
  · intro cache addr h
    simp only [pushRecent, MAX_RECENT_CACHE]
    rw [if_neg]
    simp only [List.length_append, List.length_cons, List.length_nil]
    omega
  · intro cache addr h
    simp only [pushRecent, MAX_RECENT_CACHE]
    rw [if_pos, List.drop_append_of_le_length (by omega)]
    simp only [List.length_append, List.length_cons, List.length_nil]
    omega

/-- Witness for C7: a cache below the cap is extended in order. -/
theorem pushRecent_bounded_fifo_witness :
    pushRecent ["a"] "b" = ["a"] ++ ["b"] :=
  pushRecent_bounded_fifo.2.1 ["a"] "b" (by decide)

/-- Nodeless swap edges produce no rows (they are mapped to `null` and
filtered out). -/
lemma swapRows_all_none (dateParse : String → Option ℤ) (dec : ℕ) :
    ∀ (i : ℕ) (edges : List (Option SwapNode)), (∀ e ∈ edges, e = none) →
      swapRows dateParse dec i edges = [] := by
  intro i edges
  induction edges generalizing i with
  | nil => intro _; rfl
  | cons a t ih =>
    intro h
    have ha := h a (List.mem_cons_self a t)
    subst ha
    simp only [swapRows]
    exact ih (i + 1) fun e he => h e (List.mem_cons_of_mem _ he)

/-- Claim C5: the normalizer never throws on missing or malformed data —
modelled as total functions, the three processors return empty results on
null responses, absent or empty edge lists and nodeless edges, and
`formatBalanceRaw` returns 0 on any raw balance whose `BigInt` conversion
throws. -/
theorem normalizer_never_throws (dateParse : String → Option ℤ) :
    processSwaps dateParse none 18 = [] ∧
    processComments dateParse none = [] ∧
    processHolders none = [] ∧
    (∀ resp, swapEdgesOf resp = [] → processSwaps dateParse resp 18 = []) ∧
    (∀ resp, commentEdgesOf resp = [] → processComments dateParse resp = []) ∧
    (∀ resp, holderEdgesOf resp = [] → processHolders resp = []) ∧
    (∀ (dec i : ℕ) (edges : List (Option SwapNode)), (∀ e ∈ edges, e = none) →
      swapRows dateParse dec i edges = []) ∧
    (∀ resp, (∀ e ∈ commentEdgesOf resp, e = none) →
      processComments dateParse resp = []) ∧
    (∀ resp, (∀ e ∈ holderEdgesOf resp, e = none) → processHolders resp = []) ∧
    (∀ raw decimals, rawToBigInt raw = none → formatBalanceRaw raw decimals = 0) := by
  refine ⟨rfl, rfl, rfl, ?_, ?_, ?_, fun dec i edges h => swapRows_all_none dateParse dec i edges h,
    ?_, ?_, ?_⟩
  · intro resp h
    simp [processSwaps, h]
  · intro resp h
    simp [processComments, h]
  · intro resp h
    simp [processHolders, h]
  · intro resp h
    by_cases he : (commentEdgesOf resp).isEmpty
    · simp [processComments, he]
    · simp only [processComments, he, if_false, Bool.false_eq_true]
      rw [List.filterMap_eq_nil_iff]
      intro a ha
      rw [h a (List.mem_of_mem_take ha)]
      rfl
  · intro resp h
    have hpos : posHolders resp = [] := by
      unfold posHolders
      rw [show ((holderEdgesOf resp).take 11).filterMap holderEntry = [] from ?_]
      · rfl
      · rw [List.filterMap_eq_nil_iff]
        intro a ha
        rw [h a (List.mem_of_mem_take ha)]
        rfl
    by_cases he : (holderEdgesOf resp).isEmpty
    · simp [processHolders, he]
    · simp [processHolders, he, hpos, rankHolders]
  · intro raw decimals h
    simp [formatBalanceRaw, h]

/-- Witness for C5: an unparseable raw balance string formats to 0. -/
theorem normalizer_never_throws_witness :
    formatBalanceRaw (RawVal.rstr "not a number") 18 = 0 :=
  (normalizer_never_throws (fun _ => none)).2.2.2.2.2.2.2.2.2
    (RawVal.rstr "not a number") 18 (by decide)

lemma firstNonNullish_nil : firstNonNullish ([] : List (Option α)) = none := rfl

lemma orNullish_none (a : Option α) : orNullish a none = a := by
  cases a <;> rfl

/-- The spec coalescer steps through `??`. -/
lemma firstNonNullish_cons (a : Option α) (l : List (Option α)) :
    firstNonNullish (a :: l) = orNullish a (firstNonNullish l) := by
  cases a <;> rfl

lemma firstTruthy_nil_getD (d : String) : (firstTruthy []).getD d = d := rfl

/-- The truthy spec coalescer steps through `||`. -/
lemma firstTruthy_cons_getD (a : Option String) (l : List (Option String)) (d : String) :
    (firstTruthy (a :: l)).getD d = jsOrStr a ((firstTruthy l).getD d) := by
  cases a with
  | none => rfl
  | some s =>
    by_cases hs : s = ""
    · simp [firstTruthy, jsOrStr, hs]
    · simp [firstTruthy, jsOrStr, hs]

/-- Claim C6: the source's field-alias chains agree with the spec's
coalesce-first-present operator — the swap amount and trader use `??`
(first defined non-null), the holder label and comment author use `||`
(first defined non-empty, i.e. truthy), in the fixed candidate orders of
the source. -/
theorem coalesce_first_present :
    (∀ n : SwapNode, swapAmountRaw n =
      (firstNonNullish [n.coinAmount, n.amount]).getD (RawVal.rstr "0")) ∧
    (∀ n : SwapNode, swapTrader n =
      firstNonNullish [n.senderAddress, n.fromAddress, n.toAddress, n.userAddress,
        n.trader, n.account]) ∧
    (∀ n : HolderNode, holderLabel n =
      (firstTruthy [n.ownerProfile.bind fun p => p.handle,
        n.owner.bind fun p => p.handle, n.ownerAddress, n.address]).getD "unknown") ∧
    (∀ n : CommentNode, commentAuthor n =
      (firstTruthy [n.userProfile.bind fun p => p.handle,
        n.user.bind fun p => p.handle, n.userAddress]).getD "anon") := by
  refine ⟨?_, ?_, ?_, ?_⟩
  · intro n
    simp only [firstNonNullish_cons, firstNonNullish_nil, orNullish_none, swapAmountRaw]
  · intro n
    simp only [firstNonNullish_cons, firstNonNullish_nil, orNullish_none, swapTrader]
  · intro n
    simp only [firstTruthy_cons_getD, firstTruthy_nil_getD, holderLabel]
  · intro n
    simp only [firstTruthy_cons_getD, firstTruthy_nil_getD, commentAuthor]

/-- `find?` returns the first element satisfying the predicate. -/
lemma find?_of_first (p : α → Bool) :
    ∀ (l : List α) (i : ℕ) (c : α), l.get? i = some c → p c = true →
      (∀ j, j < i → ∀ d, l.get? j = some d → p d = false) →
      l.find? p = some c := by
  intro l
  induction l with
  | nil => intro i c h _ _; cases h
  | cons a t ih =>
    intro i c hget hp hbefore
    cases i with
    | zero =>
      injection hget with hh
      subst hh
      exact List.find?_cons_of_pos t hp
    | succ n =>
      have ha : p a = false := hbefore 0 (Nat.succ_pos n) a rfl
      rw [List.find?_cons_of_neg t (by simp [ha])]
      exact ih n c hget hp fun j hj d hd => hbefore (j + 1) (by omega) d hd

/-- Claim C8: the spin selection probes the first `min 20 n` candidates in
order and chooses the first with any non-empty result; when every probe
comes back empty it falls back to another candidate — one of the remaining
ones when more than 20 exist, ultimately the first candidate. -/
theorem selectCoin_first_with_activity (cands : List Coin) (probe : Coin → ProbeResult)
    (rand : ℕ) :
    (∀ i c, (cands.take (min 20 cands.length)).get? i = some c →
      hasActivity (probe c) = true →
      (∀ j, j < i → ∀ d, (cands.take (min 20 cands.length)).get? j = some d →
        hasActivity (probe d) = false) →
      selectCoin cands probe rand = some c) ∧
    ((∀ d ∈ cands.take (min 20 cands.length), hasActivity (probe d) = false) →
      cands.length ≤ 20 → selectCoin cands probe rand = cands.head?) ∧
    ((∀ d ∈ cands.take (min 20 cands.length), hasActivity (probe d) = false) →
      cands ≠ [] → ∃ c, selectCoin cands probe rand = some c ∧ c ∈ cands) := by
  refine ⟨?_, ?_, ?_⟩
  · intro i c hget hp hbefore
    simp only [selectCoin]
    rw [find?_of_first _ _ i c hget hp hbefore]
  · intro hnone hlen
    simp only [selectCoin]
    rw [List.find?_eq_none.mpr fun x hx => by simp [hnone x hx]]
    rw [if_neg (by omega)]
  · intro hnone hne
    simp only [selectCoin]
    rw [List.find?_eq_none.mpr fun x hx => by simp [hnone x hx]]
    by_cases hlen : min 20 cands.length < cands.length
    · rw [if_pos hlen]
      have hlt : min 20 cands.length + rand % (cands.length - min 20 cands.length) <
          cands.length := by
        have := Nat.mod_lt rand (y := cands.length - min 20 cands.length) (by omega)
        omega
      have hsome := List.get?_eq_get hlt
      exact ⟨_, hsome, List.get?_mem hsome⟩
    · rw [if_neg hlen]
      cases cands with
      | nil => exact absurd rfl hne
      | cons a t => exact ⟨a, rfl, List.mem_cons_self a t⟩

/-- A candidate coin with no populated display fields. -/
def coinA : Coin :=
  { address := "a", name := none, symbol := none, marketCap := none, volume24h := none,
    uniqueHolders := none, marketCapDelta24h := none, change24h := none, createdAt := none }

def coinB : Coin := { coinA with address := "b" }

/-- A probe in which only address `b` has any activity. -/
def probeW : Coin → ProbeResult := fun c =>
  if c.address = "b" then { swaps := [none], comments := [], holders := [] }
  else { swaps := [], comments := [], holders := [] }

/-- Witness for C8: with two candidates where only the second has activity,
the second is chosen. -/
theorem selectCoin_first_with_activity_witness :
    selectCoin [coinA, coinB] probeW 0 = some coinB := by
  refine (selectCoin_first_with_activity [coinA, coinB] probeW 0).1 1 coinB
    (by decide) (by decide) ?_
  intro j hj d hd
  have hj0 : j = 0 := by omega
  subst hj0
  have h0 : ([coinA, coinB].take (min 20 ([coinA, coinB] : List Coin).length)).get? 0 =
      some coinA := by decide
  rw [h0] at hd
  injection hd with hda
  subst hda
  decide

lemma rankHolders_length (total : ℚ) :
    ∀ (i : ℕ) (l : List (String × ℚ)), (rankHolders total i l).length = l.length := by
  intro i l
  induction l generalizing i with
  | nil => rfl
  | cons p t ih => simp only [rankHolders, List.length_cons, ih]

lemma rankHolders_map_rank (total : ℚ) :
    ∀ (i : ℕ) (l : List (String × ℚ)),
      (rankHolders total i l).map (fun h => h.rank) = List.range' (i + 1) l.length := by
  intro i l
  induction l generalizing i with
  | nil => rfl
  | cons p t ih =>
    simp only [rankHolders, List.map_cons, List.length_cons, List.range'_succ, ih]

lemma rankHolders_map_holder_balance (total : ℚ) :
    ∀ (i : ℕ) (l : List (String × ℚ)),
      (rankHolders total i l).map (fun h => (h.holder, h.balance)) = l := by
  intro i l
  induction l generalizing i with
  | nil => rfl
  | cons p t ih => simp only [rankHolders, List.map_cons, ih]

/-- Every ranked holder comes from an input pair, carries the percentage
formula, and is the top holder exactly at rank 1. -/
lemma rankHolders_mem (total : ℚ) :
    ∀ (i : ℕ) (l : List (String × ℚ)) (h : ProcessedHolder), h ∈ rankHolders total i l →
      ∃ p ∈ l, h.holder = p.1 ∧ h.balance = p.2 ∧
        h.percentage =
          round1 (min 100 (max 0 (if 0 < total then p.2 / total * 100 else 0))) ∧
        (h.isTopHolder = true ↔ h.rank = 1) ∧ i + 1 ≤ h.rank := by
  intro i l
  induction l generalizing i with
  | nil => intro h hm; simp [rankHolders] at hm
  | cons p t ih =>
    intro h hm
    simp only [rankHolders, List.mem_cons] at hm
    rcases hm with rfl | hm
    · refine ⟨p, List.mem_cons_self p t, rfl, rfl, rfl, ?_, le_refl _⟩
      simp only [decide_eq_true_eq]
      omega
    · obtain ⟨q, hq, h1, h2, h3, h4, h5⟩ := ih (i + 1) h hm
      exact ⟨q, List.mem_cons_of_mem p hq, h1, h2, h3, h4, by omega⟩

/-- Claim C9: `processHolders` returns at most 10 holders, all with
strictly positive balance, ranked consecutively from 1 with `isTopHolder`
exactly at rank 1, and the holder/balance pairs are the positive-balance
holders of the first 11 edges with the first one (the presumed market
maker) excluded, in edge order, capped at ten. -/
theorem processHolders_shape (resp : Option ApiResponse) :
    (processHolders resp).length ≤ 10 ∧
    (∀ h ∈ processHolders resp, 0 < h.balance ∧ (h.isTopHolder = true ↔ h.rank = 1)) ∧
    (processHolders resp).map (fun h => h.rank) =
      List.range' 1 (processHolders resp).length ∧
    (processHolders resp).map (fun h => (h.holder, h.balance)) =
      ((posHolders resp).drop 1).take 10 := by
  by_cases he : (holderEdgesOf resp).isEmpty
  · have hpos : posHolders resp = [] := by
      unfold posHolders
      rw [List.isEmpty_iff.mp he]
      rfl
    simp [processHolders, he, hpos, List.range']
  · have hproc : processHolders resp =
        rankHolders ((((posHolders resp).drop 1).take 10).map fun p => p.2).sum 0
          (((posHolders resp).drop 1).take 10) := by
      simp [processHolders, he]
    rw [hproc]
    refine ⟨?_, ?_, ?_, ?_⟩
    · rw [rankHolders_length]
      simp only [List.length_take]
      exact Nat.min_le_left 10 _
    · intro h hm
      obtain ⟨p, hp, _, hbal, _, htop, _⟩ := rankHolders_mem _ 0 _ h hm
      have hpmem : p ∈ posHolders resp :=
        List.mem_of_mem_drop (List.mem_of_mem_take hp)
      have hppos : (0 : ℚ) < p.2 := by
        have := (List.mem_filter.mp hpmem).2
        exact of_decide_eq_true this
      exact ⟨hbal ▸ hppos, htop⟩
    · rw [rankHolders_map_rank, rankHolders_length]
    · exact rankHolders_map_holder_balance _ 0 _

def holderNodeW (addr bal : String) : HolderNode :=
  { ownerProfile := none, owner := none, ownerAddress := some addr, address := none,
    balance := some (RawVal.rstr bal), formattedBalance := none }

def holderTokenW : ZoraToken :=
  { decimals := none, swapEdges := none, commentEdges := none,
    holderEdges := some [some (holderNodeW "mm" "1000000000000000000"),
                         some (holderNodeW "alice" "2000000000000000000")] }

def holderRespW : Option ApiResponse := some { zora20Token := some holderTokenW }

/-- Witness for C9: on a two-holder response the market maker is skipped
and the remaining holder is returned at rank 1 with a positive balance. -/
theorem processHolders_shape_witness :
    0 < (⟨1, "alice", 2, 100, true⟩ : ProcessedHolder).balance ∧
      ((⟨1, "alice", 2, 100, true⟩ : ProcessedHolder).isTopHolder = true ↔
        (⟨1, "alice", 2, 100, true⟩ : ProcessedHolder).rank = 1) :=
  (processHolders_shape holderRespW).2.1 ⟨1, "alice", 2, 100, true⟩ (by decide)

/-- No two adjacent whitespace characters. -/
def noWsRun (l : List Char) : Prop :=
  l.Chain' fun a b => ¬(isJsWs a = true ∧ isJsWs b = true)

/-- Inside an open whitespace run, the collapsed output never starts with
whitespace. -/
lemma collapseGo_head_not_ws :
    ∀ (l : List Char) (c : Char), (collapseGo true l).head? = some c → isJsWs c = false := by
  intro l
  induction l with
  | nil => intro c h; cases h
  | cons a t ih =>
    intro c h
    by_cases ha : isJsWs a
    · rw [collapseGo, if_pos ha, if_pos rfl] at h
      exact ih c h
    · rw [collapseGo, if_neg ha] at h
      injection h with hc
      subst hc
      exact Bool.not_eq_true _ ▸ (by simpa using ha)

/-- The collapsed output has no two adjacent whitespace characters. -/
lemma collapseGo_noWsRun : ∀ (l : List Char) (b : Bool), noWsRun (collapseGo b l) := by
  intro l
  induction l with
  | nil => intro b; exact List.chain'_nil
  | cons a t ih =>
    intro b
    by_cases ha : isJsWs a
    · cases b
      · rw [collapseGo, if_pos ha]
        simp only [Bool.false_eq_true, if_false]
        rw [noWsRun, List.chain'_cons']
        refine ⟨?_, ih true⟩
        intro y hy
        have hws := collapseGo_head_not_ws t y (Option.mem_def.mp hy)
        simp [hws]
      · rw [collapseGo, if_pos ha, if_pos rfl]
        exact ih true
    · rw [collapseGo, if_neg ha]
      rw [noWsRun, List.chain'_cons']
      refine ⟨?_, ih false⟩
      intro y _
      simp [ha]

lemma noWsRun_dropWhile (p : Char → Bool) (l : List Char) (h : noWsRun l) :
    noWsRun (l.dropWhile p) :=
  h.suffix (List.dropWhile_suffix p)

lemma noWsRun_reverse (l : List Char) (h : noWsRun l) : noWsRun l.reverse := by
  rw [noWsRun, List.chain'_reverse]
  exact h.imp fun a b hab hba => hab ⟨hba.2, hba.1⟩

lemma noWsRun_trimChars (l : List Char) (h : noWsRun l) : noWsRun (trimChars l) :=
  noWsRun_reverse _ (noWsRun_dropWhile _ _ (noWsRun_reverse _ (noWsRun_dropWhile _ _ h)))

/-- The trimmed list never starts with whitespace. -/
lemma trimChars_head_not_ws (l : List Char) (c : Char)
    (h : (trimChars l).head? = some c) : isJsWs c = false := by
  have hpre : trimChars l <+: l.dropWhile isJsWs := by
    have hsuf : (l.dropWhile isJsWs).reverse.dropWhile isJsWs <:+
        (l.dropWhile isJsWs).reverse := List.dropWhile_suffix isJsWs
    have := List.reverse_prefix.mpr hsuf
    rwa [List.reverse_reverse] at this
  obtain ⟨t, ht⟩ := hpre
  have hd : (l.dropWhile isJsWs).head? = some c := by
    rw [← ht]
    cases hcase : trimChars l with
    | nil => rw [hcase] at h; cases h
    | cons x r =>
      rw [hcase] at h
      injection h with hx
      subst hx
      rfl
  have := List.head?_dropWhile_not isJsWs l
  rw [hd] at this
  exact this

/-- The trimmed list never ends with whitespace. -/
lemma trimChars_getLast_not_ws (l : List Char) (c : Char)
    (h : (trimChars l).getLast? = some c) : isJsWs c = false := by
  rw [trimChars, List.getLast?_reverse] at h
  have := List.head?_dropWhile_not isJsWs (l.dropWhile isJsWs).reverse
  rw [h] at this
  exact this

/-- The normalized comment text is fully whitespace-tidy. -/
lemma normalizeText_clean (s : String) :
    (∀ c, (normalizeText s).data.head? = some c → isJsWs c = false) ∧
    (∀ c, (normalizeText s).data.getLast? = some c → isJsWs c = false) ∧
    noWsRun (normalizeText s).data := by
  refine ⟨fun c h => trimChars_head_not_ws _ c h,
    fun c h => trimChars_getLast_not_ws _ c h,
    noWsRun_trimChars _ (collapseGo_noWsRun s.data false)⟩

/-- Claim C10: `processComments` returns at most 10 comments; every
returned comment's text is non-empty, has no leading or trailing
whitespace and no two consecutive whitespace characters (comments that
normalize to the empty string are omitted by the guard that produces
them). -/
theorem processComments_clean (dateParse : String → Option ℤ) (resp : Option ApiResponse) :
    (processComments dateParse resp).length ≤ 10 ∧
    (∀ c ∈ processComments dateParse resp,
      c.text ≠ "" ∧
      (∀ ch, c.text.data.head? = some ch → isJsWs ch = false) ∧
      (∀ ch, c.text.data.getLast? = some ch → isJsWs ch = false) ∧
      noWsRun c.text.data) := by
  by_cases he : (commentEdgesOf resp).isEmpty
  · simp [processComments, he]
  · have hproc : processComments dateParse resp =
        ((commentEdgesOf resp).take 10).filterMap fun e =>
          e.bind fun node =>
            let text := normalizeText (commentRawText node)
            if text = "" then none
            else
              let parsedTs := parseTimestamp dateParse (tsToVal (commentTs node))
              some { author := commentAuthor node, text := text,
                     date := (formatTimestamp parsedTs).1, timestamp := parsedTs } := by
      simp [processComments, he]
    rw [hproc]
    constructor
    · exact le_trans (List.length_filterMap_le _ _) (List.length_take_le 10 _)
    · intro c hc
      obtain ⟨e, _, hfe⟩ := List.mem_filterMap.mp hc
      cases e with
      | none => cases hfe
      | some node =>
        simp only [Option.some_bind] at hfe
        by_cases ht : normalizeText (commentRawText node) = ""
        · rw [if_pos ht] at hfe; cases hfe
        · rw [if_neg ht] at hfe
          injection hfe with hrec
          have htext : c.text = normalizeText (commentRawText node) := by
            rw [← hrec]
          obtain ⟨hh, hl, hr⟩ := normalizeText_clean (commentRawText node)
          refine ⟨htext ▸ ht, ?_, ?_, htext ▸ hr⟩
          · intro ch hch
            exact hh ch (htext ▸ hch)
          · intro ch hch
            exact hl ch (htext ▸ hch)

def commentNodeW : CommentNode :=
  { userProfile := none, user := none, userAddress := some "u1",
    comment := some "  hi   there ", text := none, timestamp := none, createdAt := none,
    time := none }

def commentTokenW : ZoraToken :=
  { decimals := none, swapEdges := none, commentEdges := some [some commentNodeW],
    holderEdges := none }

def commentRespW : Option ApiResponse := some { zora20Token := some commentTokenW }

/-- Witness for C10: the whitespace-heavy comment is returned with tidied,
non-empty text. -/
theorem processComments_clean_witness :
    ({ author := "u1", text := "hi there", date := "—", timestamp := none } :
      ProcessedComment).text ≠ "" :=
  ((processComments_clean (fun _ => none) commentRespW).2
    { author := "u1", text := "hi there", date := "—", timestamp := none } (by decide)).1

lemma rankHolders_map_balance (total : ℚ) :
    ∀ (i : ℕ) (l : List (String × ℚ)),
      (rankHolders total i l).map (fun h => h.balance) = l.map fun p => p.2 := by
  intro i l
  induction l generalizing i with
  | nil => rfl
  | cons p t ih => simp only [rankHolders, List.map_cons, ih]

lemma rankHolders_map_percentage (total : ℚ) :
    ∀ (i : ℕ) (l : List (String × ℚ)),
      (rankHolders total i l).map (fun h => h.percentage) =
        l.map fun p => round1 (min 100 (max 0 (if 0 < total then p.2 / total * 100 else 0))) := by
  intro i l
  induction l generalizing i with
  | nil => rfl
  | cons p t ih => simp only [rankHolders, List.map_cons, ih]

/-- Rounding to one decimal moves a rational by at most 1/20. -/
lemma abs_round1_sub (q : ℚ) : |round1 q - q| ≤ 1 / 20 := by
  have h : |10 * q - (round (10 * q) : ℚ)| ≤ 1 / 2 := abs_sub_round (10 * q)
  rw [abs_sub_comm] at h
  rw [round1, show ((round (10 * q) : ℤ) : ℚ) / 10 - q =
    (((round (10 * q) : ℤ) : ℚ) - 10 * q) / 10 from by ring, abs_div]
  rw [show |(10 : ℚ)| = 10 from by norm_num]
  linarith

/-- Rounding each summand to one decimal moves the sum by at most
`length / 20`. -/
lemma sum_map_round1_close (f : α → ℚ) :
    ∀ l : List α,
      |((l.map fun a => round1 (f a)).sum - (l.map f).sum)| ≤ (l.length : ℚ) * (1 / 20) := by
  intro l
  induction l with
  | nil => simp
  | cons a t ih =>
    simp only [List.map_cons, List.sum_cons, List.length_cons]
    have h1 := abs_round1_sub (f a)
    have habs : |round1 (f a) + ((t.map fun a => round1 (f a)).sum) - (f a + (t.map f).sum)| ≤
        |round1 (f a) - f a| + |((t.map fun a => round1 (f a)).sum) - (t.map f).sum| := by
      rw [show round1 (f a) + ((t.map fun a => round1 (f a)).sum) - (f a + (t.map f).sum) =
        (round1 (f a) - f a) + (((t.map fun a => round1 (f a)).sum) - (t.map f).sum) from by
          ring]
      exact abs_add _ _
    have hcast : ((t.length + 1 : ℕ) : ℚ) = (t.length : ℚ) + 1 := by push_cast; ring
    rw [hcast]
    calc |round1 (f a) + ((t.map fun a => round1 (f a)).sum) - (f a + (t.map f).sum)|
        ≤ |round1 (f a) - f a| + |((t.map fun a => round1 (f a)).sum) - (t.map f).sum| := habs
      _ ≤ 1 / 20 + (t.length : ℚ) * (1 / 20) := add_le_add h1 ih
      _ = ((t.length : ℚ) + 1) * (1 / 20) := by ring

/-- Claim C4: each returned holder's percentage is its balance divided by
the sum of the returned subset's own balances (not the token supply), times
100, clamped to [0, 100] and rounded to one decimal; whenever the subset
total is positive the returned percentages sum to 100 up to the rounding
error, which is at most 1/2. -/
theorem processHolders_percentages (resp : Option ApiResponse)
    (hT : 0 < ((processHolders resp).map fun h => h.balance).sum) :
    (∀ h ∈ processHolders resp,
      h.percentage = round1 (min 100 (max 0
        (h.balance / ((processHolders resp).map fun h => h.balance).sum * 100)))) ∧
    |((processHolders resp).map fun h => h.percentage).sum - 100| ≤ 1 / 2 := by
  by_cases he : (holderEdgesOf resp).isEmpty
  · rw [show processHolders resp = [] from by simp [processHolders, he]] at hT
    norm_num at hT
  · have hproc : processHolders resp =
        rankHolders ((((posHolders resp).drop 1).take 10).map fun p => p.2).sum 0
          (((posHolders resp).drop 1).take 10) := by
      simp [processHolders, he]
    set hl := ((posHolders resp).drop 1).take 10 with hhl
    set T := (hl.map fun p => p.2).sum with hTdef
    have hsum : ((processHolders resp).map fun h => h.balance).sum = T := by
      rw [hproc, rankHolders_map_balance]
    rw [hsum] at hT
    have hmempos : ∀ p ∈ hl, (0 : ℚ) < p.2 := by
      intro p hp
      have hpmem : p ∈ posHolders resp :=
        List.mem_of_mem_drop (List.mem_of_mem_take hp)
      exact of_decide_eq_true (List.mem_filter.mp hpmem).2
    have hmemle : ∀ p ∈ hl, p.2 ≤ T := by
      intro p hp
      refine List.single_le_sum (fun x hx => ?_) _ (List.mem_map_of_mem _ hp)
      obtain ⟨q, hq, rfl⟩ := List.mem_map.mp hx
      exact (hmempos q hq).le
    have hclamp : ∀ p ∈ hl, min 100 (max 0 (p.2 / T * 100)) = p.2 / T * 100 := by
      intro p hp
      have h0 : (0 : ℚ) ≤ p.2 / T * 100 :=
        mul_nonneg (div_nonneg (hmempos p hp).le hT.le) (by norm_num)
      have h100 : p.2 / T * 100 ≤ 100 := by
        have hle := hmemle p hp
        rw [div_mul_eq_mul_div, div_le_iff hT]
        nlinarith
      rw [max_eq_right h0, min_eq_right h100]
    constructor
    · intro h hm
      rw [hproc] at hm
      obtain ⟨p, hp, _, hbal, hpct, _, _⟩ := rankHolders_mem _ 0 _ h hm
      rw [hsum, hpct, if_pos hT, hbal]
    · have hmap : ((processHolders resp).map fun h => h.percentage) =
          hl.map fun p => round1 (p.2 / T * 100) := by
        rw [hproc, rankHolders_map_percentage]
        refine List.map_congr_left fun p hp => ?_
        rw [if_pos hT, hclamp p hp]
      have hexact : (hl.map fun p => p.2 / T * 100).sum = 100 := by
        have : (hl.map fun p => p.2 / T * 100).sum =
            (hl.map fun p => p.2).sum * (100 / T) := by
          rw [← List.sum_map_mul_right]
          refine congrArg List.sum (List.map_congr_left fun p _ => ?_)
          field_simp
        rw [this, ← hTdef]
        field_simp
      have hclose := sum_map_round1_close (fun p : String × ℚ => p.2 / T * 100) hl
      rw [hexact] at hclose
      have hlen : (hl.length : ℚ) ≤ 10 := by
        have : hl.length ≤ 10 := by
          rw [hhl]
          simp only [List.length_take]
          exact Nat.min_le_left 10 _
        exact_mod_cast this
      have hbound : (hl.length : ℚ) * (1 / 20) ≤ 1 / 2 := by linarith
      rw [hmap]
      exact le_trans hclose hbound

/-- Witness for C4: on a response whose visible subset is a single holder,
the one percentage is 100 and the sum is exactly 100. -/
theorem processHolders_percentages_witness :
    |((processHolders holderRespW).map fun h => h.percentage).sum - 100| ≤ 1 / 2 :=
  (processHolders_percentages holderRespW (by decide)).2

end ZoraRoulette
